import Mathlib

/-!
Verification of the retrieval-augmented chatbot pipeline of the
`physical_ai_humanoid_chatbot1` repository.

The development shallowly embeds the algorithmic core of the repository:

* `src/scripts/embedding-indexer/index-content.py`
  (`extract_sections`, `chunk_text`, the chapter-id computation in
  `index_content`, and the batched-embedding loop of `index_content`);
* `src/backend/chatbot_service/src/main.py` (`ask_question` and
  `_format_chapter_title`);
* `src/backend/chatbot_service/src/core/llm.py`
  (`generate_streaming_response`).

Text is modelled as `List Char` for the indexer-side code (where character
level splitting and stripping matter) and as `String` for the service-side
response objects.  Python truthiness of a string (`if s:`) is modelled as
`s ≠ ""`, and `str.split` / `str.strip` / `str.replace` are reimplemented
with Python semantics below.
-/

/-- Python whitespace test for the ASCII whitespace characters recognised by
`str.strip()` and the regex class used in `extract_sections`. -/
def isPySpace (c : Char) : Bool :=
  c = ' ' || c = '\t' || c = '\n' || c = '\r' || c = '\x0b' || c = '\x0c'

/-- Python `str.strip()`: remove leading and trailing whitespace. -/
def pyStrip (s : List Char) : List Char :=
  ((s.dropWhile isPySpace).reverse.dropWhile isPySpace).reverse

/-- The blank-line separator `"\n\n"` used by `chunk_text` in
`index-content.py`. -/
def sep2 : List Char := ['\n', '\n']

/-- Join a list of pieces with a separator, as Python
`sep.join(pieces)` does.  Used to state reassembly properties and to model
`'\n'.join(...)` in `extract_sections`. -/
def joinSep (sep : List Char) : List (List Char) → List Char
  | [] => []
  | [x] => x
  | x :: y :: rest => x ++ sep ++ joinSep sep (y :: rest)

/-- Python `content.split('\n')`: split on every newline; the result always
has at least one (possibly empty) element. -/
def splitNl : List Char → List (List Char)
  | [] => [[]]
  | c :: rest =>
    if c = '\n' then [] :: splitNl rest
    else
      match splitNl rest with
      | [] => [[c]]
      | p :: ps => (c :: p) :: ps

/-- Python `text.split('\n\n')`: leftmost, non-overlapping split on the
two-character blank-line separator, as used by `chunk_text`. -/
def splitPara2 : List Char → List (List Char)
  | [] => [[]]
  | [c] => [[c]]
  | c1 :: c2 :: rest =>
    if c1 = '\n' ∧ c2 = '\n' then [] :: splitPara2 rest
    else
      match splitPara2 (c2 :: rest) with
      | [] => [[c1]]
      | p :: ps => (c1 :: p) :: ps

/-- Does `pat` occur at the start of `s`?  (Python-style prefix test used by
the model of `str.replace`.) -/
def startsWith : List Char → List Char → Bool
  | [], _ => true
  | _ :: _, [] => false
  | p :: ps, c :: cs => p = c && startsWith ps cs

/-- Fuel-bounded worker for `pyReplace`.  The fuel starts at the length of the
subject string, which bounds the number of recursive steps whenever the
pattern is non-empty (the only way the repository calls `str.replace`). -/
def pyReplaceF (pat repl : List Char) : Nat → List Char → List Char
  | 0, s => s
  | _ + 1, [] => []
  | fuel + 1, c :: rest =>
    if startsWith pat (c :: rest) then
      repl ++ pyReplaceF pat repl fuel ((c :: rest).drop pat.length)
    else
      c :: pyReplaceF pat repl fuel rest

/-- Python `s.replace(pat, repl)`: replace every leftmost, non-overlapping
occurrence of `pat` in `s` by `repl`. -/
def pyReplace (pat repl s : List Char) : List Char :=
  pyReplaceF pat repl s.length s

/-- The chapter-identifier computation of `index_content`
(`index-content.py` line 152):
`chapter_id = md_file.stem.replace('chapter-', '').replace('intro', 'intro')`. -/
def chapterIdOfStem (stem : List Char) : List Char :=
  pyReplace "intro".data "intro".data (pyReplace "chapter-".data [] stem)

/-- Python `str.title()` (ASCII fragment): uppercase a letter that follows a
non-letter, lowercase a letter that follows a letter.  The boolean argument
records whether the previous character was a letter. -/
def pyTitle : Bool → List Char → List Char
  | _, [] => []
  | prevAlpha, c :: rest =>
    (if c.isAlpha then (if prevAlpha then c.toLower else c.toUpper) else c)
      :: pyTitle c.isAlpha rest

/-- A section produced by `extract_sections` (dict with keys
`title`, `content`, `level`, `header_id`; `content` already joined by
newlines). -/
structure MSection where
  title : List Char
  content : List Char
  level : Nat
  header_id : List Char
deriving DecidableEq

/-- The in-progress section state of `extract_sections` (its `content` is
still the list of accumulated lines). -/
structure CurSec where
  title : List Char
  content : List (List Char)
  level : Nat
  header_id : List Char
deriving DecidableEq

/-- The initial `current_section` of `extract_sections`. -/
def initialCur : CurSec :=
  ⟨"Introduction".data, [], 0, "intro".data⟩

/-- The Python regex match `re.match(r'^(#{1,6})\s+(.+)$', line)` including
its backtracking behaviour: the result is `some (level, group2)` where
`level` is the number of leading hash marks and `group2` the raw second
capture group.  When everything after the hashes is whitespace, the greedy
whitespace run backtracks one character so that the final whitespace
character becomes the (whitespace-only) title group. -/
def headerMatch (line : List Char) : Option (Nat × List Char) :=
  let k := (line.takeWhile (fun c => c = '#')).length
  let tl := line.dropWhile (fun c => c = '#')
  if 1 ≤ k ∧ k ≤ 6 then
    match tl with
    | [] => none
    | c :: rest =>
      if isPySpace c then
        let r := tl.dropWhile isPySpace
        if r ≠ [] then some (k, r)
        else if rest ≠ [] then some (k, [tl.getLastD 'x']) else none
      else none
  else none

/-- The `header_id` computation of `extract_sections`:
`title.lower().replace(' ', '-').replace('/', '-').replace('(', '').replace(')', '')`. -/
def mkHeaderId (title : List Char) : List Char :=
  (title.map Char.toLower).filterMap fun c =>
    if c = '(' ∨ c = ')' then none
    else if c = ' ' ∨ c = '/' then some '-'
    else some c

/-- Close the current section of `extract_sections`, joining its accumulated
lines with newlines. -/
def emitSec (cs : CurSec) : MSection :=
  ⟨cs.title, joinSep ['\n'] cs.content, cs.level, cs.header_id⟩

/-- One loop iteration of `extract_sections` (`index-content.py` lines
38–62): a heading line closes the previous section (if it accumulated any
content) and opens a new one; every other line is appended to the current
section's body. -/
def processLine (st : List MSection × CurSec) (line : List Char) :
    List MSection × CurSec :=
  match headerMatch line with
  | some (level, g2) =>
    let secs := if st.2.content ≠ [] then st.1 ++ [emitSec st.2] else st.1
    let title := pyStrip g2
    (secs, ⟨title, [], level, mkHeaderId title⟩)
  | none =>
    (st.1, ⟨st.2.title, st.2.content ++ [line], st.2.level, st.2.header_id⟩)

/-- The Segmenter: `extract_sections` of `index-content.py` (lines 29–71).
The unused `file_path` parameter of the Python function is omitted. -/
def extract_sections (content : List Char) : List MSection :=
  let lines := splitNl content
  let r := lines.foldl processLine ([], initialCur)
  if r.2.content ≠ [] then r.1 ++ [emitSec r.2] else r.1

/-- One loop iteration of `chunk_text` (`index-content.py` lines 82–93):
state is `(chunks, current_chunk)`. -/
def chunkStep (maxLength : Nat) (acc : List (List Char) × List Char)
    (para : List Char) : List (List Char) × List Char :=
  if acc.2.length + para.length + 2 > maxLength then
    (if acc.2 ≠ [] then acc.1 ++ [pyStrip acc.2] else acc.1, para)
  else
    (acc.1, if acc.2 ≠ [] then acc.2 ++ sep2 ++ para else para)

/-- The Chunker: `chunk_text` of `index-content.py` (lines 74–98). -/
def chunk_text (text : List Char) (maxLength : Nat) : List (List Char) :=
  let paragraphs := splitPara2 text
  let r := paragraphs.foldl (chunkStep maxLength) ([], [])
  if r.2 ≠ [] then r.1 ++ [pyStrip r.2] else r.1

/-- Run-level mirror of `chunkStep`: the current buffer is kept as the list
of paragraphs it was assembled from instead of the joined string.  Guards
test emptiness of the joined string, exactly as the string-level code
does. -/
def chunkStepR (maxLength : Nat)
    (acc : List (List (List Char)) × List (List Char)) (para : List Char) :
    List (List (List Char)) × List (List Char) :=
  if (joinSep sep2 acc.2).length + para.length + 2 > maxLength then
    (if joinSep sep2 acc.2 ≠ [] then acc.1 ++ [acc.2] else acc.1, [para])
  else
    (acc.1,
      if joinSep sep2 acc.2 ≠ [] then acc.2 ++ [para] else [para])

/-- Run-level mirror of `chunk_text`: the same fold, but producing for each
chunk the run of original paragraphs it consists of. -/
def chunkRuns (text : List Char) (maxLength : Nat) :
    List (List (List Char)) :=
  let r := (splitPara2 text).foldl (chunkStepR maxLength) ([], [])
  if joinSep sep2 r.2 ≠ [] then r.1 ++ [r.2] else r.1

/-- The predicate "nonempty and already stripped": the list is nonempty and
neither starts nor ends with Python whitespace. -/
def TrimmedNE (p : List Char) : Prop :=
  p ≠ [] ∧ isPySpace (p.headD 'a') = false ∧ isPySpace (p.getLastD 'a') = false

instance (p : List Char) : Decidable (TrimmedNE p) := by
  unfold TrimmedNE; infer_instance

/-- `r` occurs as a contiguous segment of `full`. -/
def SubSeg {α : Type} (r full : List α) : Prop :=
  ∃ u v, full = u ++ r ++ v

/-- `r` is a final segment of `full`. -/
def EndSeg {α : Type} (r full : List α) : Prop :=
  ∃ u, full = u ++ r

/-- Events of the batched-embedding loop of `index_content`
(`index-content.py` lines 185–213): an embedding-provider call carrying a
batch of the given size, or the inter-batch `time.sleep` delay. -/
inductive BatchEv where
  | embed (batchSize : Nat)
  | sleep
deriving DecidableEq

/-- Is the event an embedding-provider call? -/
def isEmbedEv : BatchEv → Bool
  | .embed _ => true
  | .sleep => false

/-- The source's embedding batch size (`embed_batch_size = 20`). -/
def embed_batch_size : Nat := 20

/-- The sequence of provider calls and delays issued by the embedding loop
of `index_content` for a given list of surviving chunks:
`for i in range(0, len(chunks_to_embed), embed_batch_size)` issues one
embedding call per slice and sleeps afterwards unless
`i + embed_batch_size >= len(chunks_to_embed)`. -/
def embedTrace {α : Type} : List α → List BatchEv
  | [] => []
  | x :: xs =>
    BatchEv.embed ((x :: xs).take embed_batch_size).length ::
      (if embed_batch_size < (x :: xs).length then
        BatchEv.sleep :: embedTrace ((x :: xs).drop embed_batch_size)
      else [])
termination_by l => l.length
decreasing_by
  simp only [List.length_drop, embed_batch_size]
  omega

/-- A retrieved (or synthetic) context chunk as the chatbot service handles
it: the dict keys `content`, `section_title`, `chapter_id`, `section_id`
of `main.py`. -/
structure Chunk where
  content : String
  section_title : String
  chapter_id : String
  section_id : String
deriving DecidableEq

/-- The `ChatRequest` model of `main.py` (question, optional selected text,
language). -/
structure ChatRequest where
  question : String
  selected_text : Option String
  language : String
deriving DecidableEq

/-- The `SourceReference` model of `main.py`. -/
structure SourceReference where
  chapter_id : String
  chapter_title : String
  section_id : String
  section_title : String
  url : String
deriving DecidableEq

/-- The `ChatResponse` model of `main.py`. -/
structure ChatResponse where
  answer : String
  sources : List SourceReference
  language : String
  out_of_scope : Bool
  suggested_chapters : Option (List String)
deriving DecidableEq

/-- The `_format_chapter_title` helper of `main.py` (lines 231–242). -/
def format_chapter_title (chapter_id : String) : String :=
  if chapter_id = "intro" then "Introduction"
  else if chapter_id = "chapter-01-foundations" then "Physical AI Foundations"
  else if chapter_id = "chapter-02-ros2" then "ROS 2"
  else if chapter_id = "chapter-03-gazebo" then "Gazebo & Digital Twins"
  else if chapter_id = "chapter-04-isaac" then "NVIDIA Isaac"
  else if chapter_id = "chapter-05-vla" then "Vision-Language-Action Models"
  else if chapter_id = "chapter-06-capstone" then "Capstone Project"
  else
    String.mk
      (pyTitle false
        (chapter_id.data.map fun c => if c = '-' then ' ' else c))

/-- Build one `SourceReference` from a context chunk, as the loop in
`ask_question` does (`main.py` lines 155–164). -/
def mkSource (language : String) (chunk : Chunk) : SourceReference :=
  { chapter_id := chunk.chapter_id
    chapter_title := format_chapter_title chunk.chapter_id
    section_id := chunk.section_id
    section_title := chunk.section_title
    url := "/" ++ language ++ "/docs/" ++ chunk.chapter_id ++ "#"
      ++ chunk.section_id }

/-- The English fallback answer of `ask_question` (`main.py` line 140). -/
def fallback_answer_en : String :=
  "I couldn\x27t find relevant information in the textbook to answer your question. Try rephrasing or browse the chapters directly."

/-- The Urdu fallback answer of `ask_question` (`main.py` line 140). -/
def fallback_answer_ur : String :=
  "میں textbook میں آپ کے سوال کا جواب دینے کے لیے متعلقہ معلومات نہیں مل سکا۔ اپنے سوال کو دوبارہ لکھنے کی کوشش کریں یا براہ راست ابواب دیکھیں۔"

/-- The context-chunk computation of `ask_question` (`main.py` lines
116–135): Python truthiness of `request.selected_text` selects the
synthetic "Selected Text" chunk, otherwise the question is embedded and the
index searched.  The embedding type `E`, the embedding function and the
search function (which absorbs the configured result limit and score
threshold) are parameters of the model. -/
def ask_question_context {E : Type} (embed_query : String → E)
    (search : E → String → List Chunk) (req : ChatRequest) : List Chunk :=
  match req.selected_text with
  | some s =>
    if s ≠ "" then [⟨s, "Selected Text", "unknown", "selected"⟩]
    else search (embed_query req.question) req.language
  | none => search (embed_query req.question) req.language

/-- The `/chat/question` handler `ask_question` of `main.py` (lines
100–171), parametrised by the embedding function, the search function and
the generation provider (`llm_client.generate_response`). -/
def ask_question {E : Type} (embed_query : String → E)
    (search : E → String → List Chunk)
    (generate_response : String → List Chunk → String → String)
    (req : ChatRequest) : ChatResponse :=
  let language := req.language
  let context_chunks := ask_question_context embed_query search req
  if context_chunks = [] then
    { answer := if language = "en" then fallback_answer_en else fallback_answer_ur
      sources := []
      language := language
      out_of_scope := true
      suggested_chapters := some ["chapter-01-foundations"] }
  else
    { answer := generate_response req.question context_chunks language
      sources := context_chunks.map (mkSource language)
      language := language
      out_of_scope := false
      suggested_chapters := none }

/-- One event of the generation provider's stream as consumed by
`generate_streaming_response` (`llm.py` lines 131–162): either a delivered
delta whose `content` field may be absent, or the point at which the
provider raises an exception. -/
inductive StreamItem where
  | delta (content : Option String)
  | failure (message : String)
deriving DecidableEq

/-- Is the stream item an ordinary delta (no exception)? -/
def isDelta : StreamItem → Bool
  | .delta _ => true
  | .failure _ => false

/-- The text fragments a consumer of the stream receives before any
failure: exactly the deltas with truthy (present and non-empty) content,
in order. -/
def deliveredOf : List StreamItem → List String
  | [] => []
  | .delta (some s) :: rest =>
    if s ≠ "" then s :: deliveredOf rest else deliveredOf rest
  | .delta none :: rest => deliveredOf rest
  | .failure _ :: rest => deliveredOf rest

/-- The generator body of `generate_streaming_response` (`llm.py` lines
146–162) as a function of the provider's stream: forward each truthy delta
content immediately; when the provider raises, the `except` clause yields a
single terminal `"Error: ..."` fragment and the generator ends.  The
function is total, so no exception crosses the component boundary. -/
def generate_streaming_response : List StreamItem → List String
  | [] => []
  | .delta (some s) :: rest =>
    if s ≠ "" then s :: generate_streaming_response rest
    else generate_streaming_response rest
  | .delta none :: rest => generate_streaming_response rest
  | .failure m :: _ => ["Error: " ++ m]

/-! ### Basic lemmas about the text utilities -/

theorem joinSep_cons_of_ne {sep : List Char} {x : List Char}
    {ys : List (List Char)} (h : ys ≠ []) :
    joinSep sep (x :: ys) = x ++ sep ++ joinSep sep ys := by
  cases ys with
  | nil => exact absurd rfl h
  | cons y ys => rfl

theorem joinSep_cons_head (sep : List Char) (a : Char) (p : List Char)
    (ps : List (List Char)) :
    joinSep sep ((a :: p) :: ps) = a :: joinSep sep (p :: ps) := by
  cases ps with
  | nil => rfl
  | cons q qs => simp [joinSep]

theorem joinSep_append {sep : List Char} {xs ys : List (List Char)}
    (hx : xs ≠ []) (hy : ys ≠ []) :
    joinSep sep (xs ++ ys) = joinSep sep xs ++ sep ++ joinSep sep ys := by
  induction xs with
  | nil => exact absurd rfl hx
  | cons x xs ih =>
    cases xs with
    | nil =>
      cases ys with
      | nil => exact absurd rfl hy
      | cons y ys => simp [joinSep]
    | cons x2 xs2 =>
      have h2 : (x2 :: xs2) ++ ys ≠ [] := by simp
      calc joinSep sep ((x :: x2 :: xs2) ++ ys)
          = x ++ sep ++ joinSep sep ((x2 :: xs2) ++ ys) := by
            rw [List.cons_append, joinSep_cons_of_ne h2]
        _ = x ++ sep ++ (joinSep sep (x2 :: xs2) ++ sep ++ joinSep sep ys) := by
            rw [ih (by simp)]
        _ = joinSep sep (x :: x2 :: xs2) ++ sep ++ joinSep sep ys := by
            simp [joinSep, List.append_assoc]

theorem ne_nil_of_joinSep_ne_nil {sep : List Char} {xs : List (List Char)}
    (h : joinSep sep xs ≠ []) : xs ≠ [] := by
  intro hx; subst hx; exact h rfl

theorem joinSep_merge (sep : List Char) (xs : List (List Char))
    (a b : List Char) (ys : List (List Char)) :
    joinSep sep (xs ++ (a ++ sep ++ b) :: ys) =
      joinSep sep (xs ++ a :: b :: ys) := by
  cases hx : xs with
  | nil =>
    cases ys with
    | nil => simp [joinSep]
    | cons y ys => simp [joinSep, List.append_assoc]
  | cons x xs2 =>
    rw [joinSep_append (by simp) (by simp),
        joinSep_append (by simp) (by simp)]
    congr 1
    cases ys with
    | nil => simp [joinSep]
    | cons y ys => simp [joinSep, List.append_assoc]

theorem splitNl_ne_nil (l : List Char) : splitNl l ≠ [] := by
  cases l with
  | nil => simp [splitNl]
  | cons c rest =>
    simp only [splitNl]
    by_cases h : c = '\n'
    · simp [h]
    · rw [if_neg h]
      cases hps : splitNl rest with
      | nil => simp
      | cons p ps => simp

theorem joinSep_splitNl (l : List Char) : joinSep ['\n'] (splitNl l) = l := by
  induction l with
  | nil => rfl
  | cons c rest ih =>
    simp only [splitNl]
    by_cases h : c = '\n'
    · subst h
      rw [if_pos rfl]
      cases hps : splitNl rest with
      | nil => exact absurd hps (splitNl_ne_nil rest)
      | cons p ps =>
        rw [hps] at ih
        rw [joinSep_cons_of_ne (by simp)]
        simp [ih]
    · rw [if_neg h]
      cases hps : splitNl rest with
      | nil => exact absurd hps (splitNl_ne_nil rest)
      | cons p ps =>
        rw [hps] at ih
        rw [joinSep_cons_head]
        rw [ih]

theorem splitPara2_ne_nil (l : List Char) : splitPara2 l ≠ [] := by
  cases l with
  | nil => simp [splitPara2]
  | cons c1 rest =>
    cases rest with
    | nil => simp [splitPara2]
    | cons c2 rest2 =>
      simp only [splitPara2]
      by_cases h : c1 = '\n' ∧ c2 = '\n'
      · simp [h]
      · rw [if_neg h]
        cases hps : splitPara2 (c2 :: rest2) with
        | nil => simp
        | cons p ps => simp

theorem joinSep_splitPara2 (l : List Char) :
    joinSep sep2 (splitPara2 l) = l := by
  induction l using splitPara2.induct with
  | case1 => rfl
  | case2 c => rfl
  | case3 c1 c2 rest h ih =>
    obtain ⟨rfl, rfl⟩ := h
    have hunf : splitPara2 ('\n' :: '\n' :: rest) = [] :: splitPara2 rest := by
      simp [splitPara2]
    rw [hunf]
    cases hps : splitPara2 rest with
    | nil => exact absurd hps (splitPara2_ne_nil rest)
    | cons p ps =>
      rw [hps] at ih
      rw [joinSep_cons_of_ne (by simp)]
      simp only [sep2] at ih
      simp [sep2, ih]
  | case4 c1 c2 rest h hnil ih =>
    exact absurd hnil (splitPara2_ne_nil (c2 :: rest))
  | case5 c1 c2 rest h p ps hps ih =>
    rw [hps] at ih
    simp only [splitPara2, if_neg h, hps]
    rw [joinSep_cons_head, ih]

theorem pyStrip_length_le (s : List Char) : (pyStrip s).length ≤ s.length := by
  unfold pyStrip
  calc ((s.dropWhile isPySpace).reverse.dropWhile isPySpace).reverse.length
      = ((s.dropWhile isPySpace).reverse.dropWhile isPySpace).length := by simp
    _ ≤ (s.dropWhile isPySpace).reverse.length :=
        (List.dropWhile_sublist isPySpace).length_le
    _ = (s.dropWhile isPySpace).length := by simp
    _ ≤ s.length := (List.dropWhile_sublist isPySpace).length_le

theorem getLastD_default_irrel {q : List Char} (h : q ≠ []) (d e : Char) :
    q.getLastD d = q.getLastD e := by
  cases q with
  | nil => exact absurd rfl h
  | cons a q2 => rw [List.getLastD_cons, List.getLastD_cons]

theorem headD_append_left {p : List Char} (x : List Char) (d : Char)
    (h : p ≠ []) : (p ++ x).headD d = p.headD d := by
  cases p with
  | nil => exact absurd rfl h
  | cons c t => rfl

theorem getLastD_append_right (x : List Char) {q : List Char} (h : q ≠ []) :
    ∀ d, (x ++ q).getLastD d = q.getLastD d := by
  induction x with
  | nil => intro d; rfl
  | cons c x2 ih =>
    intro d
    rw [List.cons_append, List.getLastD_cons, ih c, getLastD_default_irrel h c d]

theorem pyStrip_eq_self {p : List Char} (hp : TrimmedNE p) : pyStrip p = p := by
  obtain ⟨hne, hhead, hlast⟩ := hp
  cases p with
  | nil => exact absurd rfl hne
  | cons c t =>
    have hc : isPySpace c = false := hhead
    have h1 : List.dropWhile isPySpace (c :: t) = c :: t := by
      rw [List.dropWhile_cons, hc]
      simp
    unfold pyStrip
    rw [h1]
    obtain ⟨u, a, hua⟩ := (List.eq_nil_or_concat (c :: t)).resolve_left (by simp)
    rw [List.concat_eq_append] at hua
    have ha : isPySpace a = false := by
      rw [hua] at hlast
      rwa [List.getLastD_concat] at hlast
    rw [hua, List.reverse_append]
    simp only [List.reverse_cons, List.reverse_nil, List.nil_append,
      List.singleton_append]
    rw [List.dropWhile_cons, ha]
    simp

theorem trimmedNE_append_sep {p q : List Char} (hp : TrimmedNE p)
    (hq : TrimmedNE q) : TrimmedNE (p ++ sep2 ++ q) := by
  obtain ⟨hpne, hph, hpl⟩ := hp
  obtain ⟨hqne, hqh, hql⟩ := hq
  refine ⟨by simp [sep2], ?_, ?_⟩
  · rw [headD_append_left _ _ (by simp [hpne] : p ++ sep2 ≠ []),
      headD_append_left _ _ hpne]
    exact hph
  · rw [getLastD_append_right (p ++ sep2) hqne 'a']
    exact hql

/-! ### The run-level view of the Chunker -/

theorem chunkStep_sim (L : Nat) (runs : List (List (List Char)))
    (cur : List (List Char)) (p : List Char) :
    chunkStep L (runs.map fun r => pyStrip (joinSep sep2 r), joinSep sep2 cur) p
      = ((chunkStepR L (runs, cur) p).1.map fun r => pyStrip (joinSep sep2 r),
          joinSep sep2 (chunkStepR L (runs, cur) p).2) := by
  unfold chunkStep chunkStepR
  by_cases hc : (joinSep sep2 cur).length + p.length + 2 > L
  · rw [if_pos hc, if_pos hc]
    by_cases hne : joinSep sep2 cur ≠ []
    · rw [if_pos hne, if_pos hne]
      simp [joinSep]
    · rw [if_neg hne, if_neg hne]
      simp [joinSep]
  · rw [if_neg hc, if_neg hc]
    by_cases hne : joinSep sep2 cur ≠ []
    · rw [if_pos hne, if_pos hne]
      have hcur : cur ≠ [] := ne_nil_of_joinSep_ne_nil hne
      simp [joinSep, joinSep_append hcur (by simp : ([p] : List (List Char)) ≠ [])]
    · rw [if_neg hne, if_neg hne]
      simp [joinSep]

theorem chunkFold_sim (L : Nat) (paras : List (List Char)) :
    ∀ (runs : List (List (List Char))) (cur : List (List Char)),
      List.foldl (chunkStep L)
          (runs.map fun r => pyStrip (joinSep sep2 r), joinSep sep2 cur) paras
        = ((List.foldl (chunkStepR L) (runs, cur) paras).1.map
              fun r => pyStrip (joinSep sep2 r),
            joinSep sep2 (List.foldl (chunkStepR L) (runs, cur) paras).2) := by
  induction paras with
  | nil => intro runs cur; rfl
  | cons p ps ih =>
    intro runs cur
    rw [List.foldl_cons, List.foldl_cons, chunkStep_sim L runs cur p]
    exact ih (chunkStepR L (runs, cur) p).1 (chunkStepR L (runs, cur) p).2

theorem chunk_text_eq_runs (t : List Char) (L : Nat) :
    chunk_text t L = (chunkRuns t L).map fun r => pyStrip (joinSep sep2 r) := by
  have h := chunkFold_sim L (splitPara2 t) [] []
  simp only [List.map_nil] at h
  have hinit : joinSep sep2 ([] : List (List Char)) = [] := rfl
  rw [hinit] at h
  simp only [chunk_text, chunkRuns, h]
  by_cases hne :
      joinSep sep2 (List.foldl (chunkStepR L) ([], []) (splitPara2 t)).2 ≠ []
  · rw [if_pos hne, if_pos hne, List.map_append]
    rfl
  · rw [if_neg hne, if_neg hne]

theorem chunkRunsFold_inv (L : Nat) (allP : List (List Char)) :
    ∀ (rem processed : List (List Char)) (runs : List (List (List Char)))
      (cur : List (List Char)),
      allP = processed ++ rem →
      (∀ r ∈ runs, r ≠ [] ∧ SubSeg r allP ∧
        (2 ≤ r.length → (joinSep sep2 r).length ≤ L)) →
      EndSeg cur processed →
      (2 ≤ cur.length → (joinSep sep2 cur).length ≤ L) →
      (∀ r ∈ (List.foldl (chunkStepR L) (runs, cur) rem).1,
          r ≠ [] ∧ SubSeg r allP ∧
          (2 ≤ r.length → (joinSep sep2 r).length ≤ L)) ∧
        EndSeg (List.foldl (chunkStepR L) (runs, cur) rem).2 allP ∧
        (2 ≤ (List.foldl (chunkStepR L) (runs, cur) rem).2.length →
          (joinSep sep2 (List.foldl (chunkStepR L) (runs, cur) rem).2).length ≤ L) := by
  intro rem
  induction rem with
  | nil =>
    intro processed runs cur hsplit hruns hcur hlen
    simp only [List.foldl_nil]
    have hap : allP = processed := by simpa using hsplit
    subst hap
    exact ⟨hruns, hcur, hlen⟩
  | cons p rem2 ih =>
    intro processed runs cur hsplit hruns hcur hlen
    rw [List.foldl_cons]
    have hsplit2 : allP = (processed ++ [p]) ++ rem2 := by
      rw [hsplit]; simp
    by_cases hc : (joinSep sep2 cur).length + p.length + 2 > L
    · by_cases hne : joinSep sep2 cur ≠ []
      · have hstep : chunkStepR L (runs, cur) p = (runs ++ [cur], [p]) := by
          unfold chunkStepR; rw [if_pos hc, if_pos hne]
        rw [hstep]
        apply ih (processed ++ [p]) _ _ hsplit2
        · intro r hr
          rcases List.mem_append.mp hr with hr | hr
          · exact hruns r hr
          · rw [List.mem_singleton] at hr
            subst hr
            obtain ⟨u, hu⟩ := hcur
            refine ⟨ne_nil_of_joinSep_ne_nil hne, ⟨u, p :: rem2, ?_⟩, hlen⟩
            rw [hsplit, hu, List.append_assoc]
        · exact ⟨processed, rfl⟩
        · intro h2; simp at h2
      · have hstep : chunkStepR L (runs, cur) p = (runs, [p]) := by
          unfold chunkStepR; rw [if_pos hc, if_neg hne]
        rw [hstep]
        apply ih (processed ++ [p]) _ _ hsplit2 hruns
        · exact ⟨processed, rfl⟩
        · intro h2; simp at h2
    · by_cases hne : joinSep sep2 cur ≠ []
      · have hstep : chunkStepR L (runs, cur) p = (runs, cur ++ [p]) := by
          unfold chunkStepR; rw [if_neg hc, if_pos hne]
        rw [hstep]
        apply ih (processed ++ [p]) _ _ hsplit2 hruns
        · obtain ⟨u, hu⟩ := hcur
          exact ⟨u, by rw [hu, List.append_assoc]⟩
        · intro _
          have hcur2 : cur ≠ [] := ne_nil_of_joinSep_ne_nil hne
          rw [joinSep_append hcur2 (by simp : ([p] : List (List Char)) ≠ [])]
          have hjp : joinSep sep2 [p] = p := rfl
          rw [hjp]
          simp only [List.length_append]
          have hsl : sep2.length = 2 := rfl
          rw [hsl]
          simp only [not_lt] at hc
          omega
      · have hstep : chunkStepR L (runs, cur) p = (runs, [p]) := by
          unfold chunkStepR; rw [if_neg hc, if_neg hne]
        rw [hstep]
        apply ih (processed ++ [p]) _ _ hsplit2 hruns
        · exact ⟨processed, rfl⟩
        · intro h2; simp at h2

theorem chunkRuns_inv (t : List Char) (L : Nat) :
    ∀ r ∈ chunkRuns t L, r ≠ [] ∧ SubSeg r (splitPara2 t) ∧
      (2 ≤ r.length → (joinSep sep2 r).length ≤ L) := by
  have h := chunkRunsFold_inv L (splitPara2 t) (splitPara2 t) [] [] []
    rfl (by intro r hr; simp at hr) ⟨[], rfl⟩ (by intro h2; simp at h2)
  intro r hr
  simp only [chunkRuns] at hr
  by_cases hne :
      joinSep sep2 (List.foldl (chunkStepR L) ([], []) (splitPara2 t)).2 ≠ []
  · rw [if_pos hne] at hr
    rcases List.mem_append.mp hr with hr | hr
    · exact h.1 r hr
    · rw [List.mem_singleton] at hr
      subst hr
      obtain ⟨u, hu⟩ := h.2.1
      exact ⟨ne_nil_of_joinSep_ne_nil hne,
        ⟨u, [], by rw [List.append_nil]; exact hu⟩, h.2.2⟩
  · rw [if_neg hne] at hr
    exact h.1 r hr

theorem chunkFold_runs_mono (L : Nat) :
    ∀ (rem : List (List Char)) (runs : List (List (List Char)))
      (cur : List (List Char)),
      runs ⊆ (List.foldl (chunkStepR L) (runs, cur) rem).1 := by
  intro rem
  induction rem with
  | nil => intro runs cur a ha; simpa using ha
  | cons p rem2 ih =>
    intro runs cur a ha
    rw [List.foldl_cons]
    by_cases hc : (joinSep sep2 cur).length + p.length + 2 > L
    · by_cases hne : joinSep sep2 cur ≠ []
      · rw [show chunkStepR L (runs, cur) p = (runs ++ [cur], [p]) from by
          unfold chunkStepR; rw [if_pos hc, if_pos hne]]
        exact ih _ _ (List.mem_append_left _ ha)
      · rw [show chunkStepR L (runs, cur) p = (runs, [p]) from by
          unfold chunkStepR; rw [if_pos hc, if_neg hne]]
        exact ih _ _ ha
    · by_cases hne : joinSep sep2 cur ≠ []
      · rw [show chunkStepR L (runs, cur) p = (runs, cur ++ [p]) from by
          unfold chunkStepR; rw [if_neg hc, if_pos hne]]
        exact ih _ _ ha
      · rw [show chunkStepR L (runs, cur) p = (runs, [p]) from by
          unfold chunkStepR; rw [if_neg hc, if_neg hne]]
        exact ih _ _ ha

theorem chunkFold_final_mem (L : Nat) (rem : List (List Char))
    (runs : List (List (List Char))) (cur : List (List Char))
    (a : List (List Char)) (ha : a ∈ runs) :
    a ∈ (if joinSep sep2 (List.foldl (chunkStepR L) (runs, cur) rem).2 ≠ []
         then (List.foldl (chunkStepR L) (runs, cur) rem).1
           ++ [(List.foldl (chunkStepR L) (runs, cur) rem).2]
         else (List.foldl (chunkStepR L) (runs, cur) rem).1) := by
  have h1 : a ∈ (List.foldl (chunkStepR L) (runs, cur) rem).1 :=
    chunkFold_runs_mono L rem runs cur ha
  split_ifs with h
  · exact List.mem_append_left _ h1
  · exact h1

theorem chunkFold_cur_oversize (L : Nat) (rem : List (List Char))
    (runs : List (List (List Char))) (p : List Char) (hL : L < p.length) :
    [p] ∈ (if joinSep sep2 (List.foldl (chunkStepR L) (runs, [p]) rem).2 ≠ []
           then (List.foldl (chunkStepR L) (runs, [p]) rem).1
             ++ [(List.foldl (chunkStepR L) (runs, [p]) rem).2]
           else (List.foldl (chunkStepR L) (runs, [p]) rem).1) := by
  have hjp : joinSep sep2 [p] = p := rfl
  have hpne : p ≠ [] := by
    intro hnil
    rw [hnil] at hL
    simp at hL
  cases rem with
  | nil =>
    simp only [List.foldl_nil]
    rw [if_pos (by rw [hjp]; exact hpne)]
    exact List.mem_append_right _ (by simp)
  | cons q rem2 =>
    rw [List.foldl_cons]
    have hc : (joinSep sep2 [p]).length + q.length + 2 > L := by
      rw [hjp]; omega
    have hstep : chunkStepR L (runs, [p]) q = (runs ++ [[p]], [q]) := by
      unfold chunkStepR
      rw [if_pos hc, if_pos (by rw [hjp]; exact hpne)]
    rw [hstep]
    exact chunkFold_final_mem L rem2 _ [q] [p]
      (List.mem_append_right _ (by simp))

theorem chunkFold_oversize (L : Nat) :
    ∀ (rem : List (List Char)) (runs : List (List (List Char)))
      (cur : List (List Char)) (p : List Char),
      p ∈ rem → L < p.length →
      [p] ∈ (if joinSep sep2 (List.foldl (chunkStepR L) (runs, cur) rem).2 ≠ []
             then (List.foldl (chunkStepR L) (runs, cur) rem).1
               ++ [(List.foldl (chunkStepR L) (runs, cur) rem).2]
             else (List.foldl (chunkStepR L) (runs, cur) rem).1) := by
  intro rem
  induction rem with
  | nil => intro _ _ p hp; simp at hp
  | cons q rem2 ih =>
    intro runs cur p hp hL
    rcases List.mem_cons.mp hp with rfl | hp2
    · rw [List.foldl_cons]
      have hc : (joinSep sep2 cur).length + p.length + 2 > L := by omega
      have hstep : (chunkStepR L (runs, cur) p).2 = [p] := by
        unfold chunkStepR
        rw [if_pos hc]
      have hstep1 :
          chunkStepR L (runs, cur) p =
            ((chunkStepR L (runs, cur) p).1, [p]) := by
        rw [← hstep]
      rw [hstep1]
      exact chunkFold_cur_oversize L rem2 _ p hL
    · rw [List.foldl_cons]
      exact ih _ _ p hp2 hL

theorem chunkRuns_oversize (t : List Char) (L : Nat) :
    ∀ p ∈ splitPara2 t, L < p.length → [p] ∈ chunkRuns t L := by
  intro p hp hL
  simp only [chunkRuns]
  exact chunkFold_oversize L (splitPara2 t) [] [] p hp hL

theorem chunkStep_initial (L : Nat) (p : List Char) :
    chunkStep L ([], []) p = ([], p) := by
  simp [chunkStep]

theorem trimmedNE_joinSep :
    ∀ {ps : List (List Char)}, ps ≠ [] → (∀ p ∈ ps, TrimmedNE p) →
      TrimmedNE (joinSep sep2 ps) := by
  intro ps
  induction ps with
  | nil => intro h; exact absurd rfl h
  | cons p ps ih =>
    intro _ hall
    cases ps with
    | nil => exact hall p (List.mem_singleton_self p)
    | cons q qs =>
      have h1 : TrimmedNE p := hall p (List.mem_cons_self p _)
      have h2 : TrimmedNE (joinSep sep2 (q :: qs)) :=
        ih (by simp) fun r hr => hall r (List.mem_cons_of_mem _ hr)
      rw [joinSep_cons_of_ne (by simp)]
      exact trimmedNE_append_sep h1 h2

theorem chunkFold_reassemble (L : Nat) :
    ∀ (paras : List (List Char)), (∀ p ∈ paras, TrimmedNE p) →
      ∀ (chunks : List (List Char)) (cur : List Char), TrimmedNE cur →
        joinSep sep2
            (if (List.foldl (chunkStep L) (chunks, cur) paras).2 ≠ []
             then (List.foldl (chunkStep L) (chunks, cur) paras).1
               ++ [pyStrip (List.foldl (chunkStep L) (chunks, cur) paras).2]
             else (List.foldl (chunkStep L) (chunks, cur) paras).1)
          = joinSep sep2 ((chunks ++ [cur]) ++ paras) := by
  intro paras
  induction paras with
  | nil =>
    intro _ chunks cur hcur
    simp only [List.foldl_nil]
    rw [if_pos hcur.1, pyStrip_eq_self hcur]
    simp
  | cons p ps ih =>
    intro hall chunks cur hcur
    have hp : TrimmedNE p := hall p (List.mem_cons_self p ps)
    have hps : ∀ q ∈ ps, TrimmedNE q :=
      fun q hq => hall q (List.mem_cons_of_mem _ hq)
    rw [List.foldl_cons]
    by_cases hc : cur.length + p.length + 2 > L
    · have hstep : chunkStep L (chunks, cur) p = (chunks ++ [cur], p) := by
        unfold chunkStep
        rw [if_pos hc, if_pos hcur.1, pyStrip_eq_self hcur]
      rw [hstep, ih hps (chunks ++ [cur]) p hp]
      congr 1
      simp
    · have hstep : chunkStep L (chunks, cur) p = (chunks, cur ++ sep2 ++ p) := by
        unfold chunkStep
        rw [if_neg hc, if_pos hcur.1]
      rw [hstep, ih hps chunks (cur ++ sep2 ++ p) (trimmedNE_append_sep hcur hp)]
      rw [show (chunks ++ [cur ++ sep2 ++ p]) ++ ps
            = chunks ++ (cur ++ sep2 ++ p) :: ps from by simp,
          show (chunks ++ [cur]) ++ p :: ps = chunks ++ cur :: p :: ps from by simp,
          joinSep_merge]

/-! ### Segmenter lemmas -/

theorem processLine_nonheader (st : List MSection × CurSec) (line : List Char)
    (h : headerMatch line = none) :
    processLine st line =
      (st.1, ⟨st.2.title, st.2.content ++ [line], st.2.level, st.2.header_id⟩) := by
  unfold processLine
  rw [h]

theorem foldl_processLine_nonheader :
    ∀ (lines : List (List Char)), (∀ l ∈ lines, headerMatch l = none) →
      ∀ (secs : List MSection) (cur : CurSec),
        List.foldl processLine (secs, cur) lines =
          (secs, ⟨cur.title, cur.content ++ lines, cur.level, cur.header_id⟩) := by
  intro lines
  induction lines with
  | nil =>
    intro _ secs cur
    simp
  | cons l ls ih =>
    intro hall secs cur
    rw [List.foldl_cons, processLine_nonheader _ _ (hall l (List.mem_cons_self l ls))]
    rw [ih (fun x hx => hall x (List.mem_cons_of_mem _ hx))]
    simp

/-! ### Embedding batch loop lemmas -/

theorem embedTrace_nil (α : Type) : embedTrace ([] : List α) = [] := by
  simp [embedTrace]

theorem embedTrace_small {α : Type} (l : List α) (h0 : l ≠ [])
    (h : l.length ≤ embed_batch_size) :
    embedTrace l = [BatchEv.embed l.length] := by
  cases l with
  | nil => exact absurd rfl h0
  | cons x xs =>
    simp only [embedTrace]
    rw [if_neg (by omega : ¬ embed_batch_size < (x :: xs).length)]
    rw [List.length_take]
    congr 2
    omega

theorem embedTrace_big {α : Type} (l : List α)
    (h : embed_batch_size < l.length) :
    embedTrace l = BatchEv.embed embed_batch_size :: BatchEv.sleep
      :: embedTrace (l.drop embed_batch_size) := by
  cases l with
  | nil => simp at h
  | cons x xs =>
    simp only [embedTrace]
    rw [if_pos h]
    rw [List.length_take]
    congr 3
    omega

theorem embedTrace_head {α : Type} (l : List α) (h : l ≠ []) :
    ∃ n rest, embedTrace l = BatchEv.embed n :: rest := by
  by_cases hb : embed_batch_size < l.length
  · exact ⟨_, _, embedTrace_big l hb⟩
  · exact ⟨_, _, embedTrace_small l h (by omega)⟩

theorem embedTrace_countP {α : Type} (l : List α) :
    (embedTrace l).countP isEmbedEv = (l.length + 19) / 20 := by
  have hbs : embed_batch_size = 20 := rfl
  generalize hn : l.length = n
  induction n using Nat.strong_induction_on generalizing l with
  | _ n ih =>
    by_cases h0 : l = []
    · subst h0
      simp only [List.length_nil] at hn
      subst hn
      rw [embedTrace_nil]
      simp
    · by_cases hb : embed_batch_size < l.length
      · rw [embedTrace_big l hb]
        have hlen : (l.drop embed_batch_size).length = n - 20 := by
          rw [List.length_drop, hn, hbs]
        have hrec := ih (n - 20) (by rw [hbs] at hb; omega)
          (l.drop embed_batch_size) hlen
        simp [List.countP_cons, isEmbedEv]
        rw [hrec]
        rw [hbs] at hb
        rw [hn] at hb
        omega
      · have h1 : l.length ≤ embed_batch_size := by omega
        rw [embedTrace_small l h0 h1]
        have hpos : 0 < n := by
          rw [← hn]
          exact List.length_pos.mpr h0
        rw [hbs] at h1
        rw [hn] at h1 ⊢
        simp [List.countP_cons, isEmbedEv]
        omega

theorem embedTrace_intersperse {α : Type} (l : List α) :
    embedTrace l = List.intersperse BatchEv.sleep
      ((embedTrace l).filter isEmbedEv) := by
  have hbs : embed_batch_size = 20 := rfl
  generalize hn : l.length = n
  induction n using Nat.strong_induction_on generalizing l with
  | _ n ih =>
    by_cases h0 : l = []
    · subst h0
      rw [embedTrace_nil]
      simp
    · by_cases hb : embed_batch_size < l.length
      · rw [embedTrace_big l hb]
        have hlen : (l.drop embed_batch_size).length = n - 20 := by
          rw [List.length_drop, hn, hbs]
        have hd : l.drop embed_batch_size ≠ [] := by
          refine List.length_pos.mp ?_
          rw [List.length_drop]
          omega
        have ihT := ih (n - 20) (by rw [hbs] at hb; rw [hn] at hb; omega)
          (l.drop embed_batch_size) hlen
        obtain ⟨m, rest, hhead⟩ := embedTrace_head (l.drop embed_batch_size) hd
        have hfT : (embedTrace (l.drop embed_batch_size)).filter isEmbedEv
            = BatchEv.embed m :: (rest.filter isEmbedEv) := by
          rw [hhead]
          simp [List.filter_cons, isEmbedEv]
        simp only [List.filter_cons, isEmbedEv, cond_true, cond_false]
        rw [hfT]
        simp only [List.intersperse]
        rw [← hfT, ← ihT]
      · have h1 : l.length ≤ embed_batch_size := by omega
        rw [embedTrace_small l h0 h1]
        simp [isEmbedEv, List.intersperse]

theorem embedTrace_45 {α : Type} (l : List α) (h : l.length = 45) :
    embedTrace l = [BatchEv.embed 20, BatchEv.sleep, BatchEv.embed 20,
      BatchEv.sleep, BatchEv.embed 5] := by
  have hbs : embed_batch_size = 20 := rfl
  have h1 := embedTrace_big l (by rw [hbs]; omega)
  have h2 : (l.drop embed_batch_size).length = 25 := by
    rw [List.length_drop, h, hbs]
  have h3 := embedTrace_big (l.drop embed_batch_size)
    (by rw [h2, hbs]; omega)
  have h4 : ((l.drop embed_batch_size).drop embed_batch_size).length = 5 := by
    rw [List.length_drop, h2, hbs]
  have h5 := embedTrace_small ((l.drop embed_batch_size).drop embed_batch_size)
    (by refine List.length_pos.mp ?_; rw [h4]; omega)
    (by rw [h4, hbs]; omega)
  rw [h1, h3, h5, h4, hbs]

/-! ### Streaming generator lemma -/

theorem streaming_deliver (pre : List StreamItem) (m : String)
    (post : List StreamItem) (h : ∀ it ∈ pre, isDelta it = true) :
    generate_streaming_response (pre ++ StreamItem.failure m :: post)
      = deliveredOf pre ++ ["Error: " ++ m] := by
  induction pre with
  | nil => simp [generate_streaming_response, deliveredOf]
  | cons it pre2 ih =>
    have hit := h it (List.mem_cons_self it pre2)
    have h2 : ∀ x ∈ pre2, isDelta x = true :=
      fun x hx => h x (List.mem_cons_of_mem _ hx)
    cases it with
    | failure m2 => simp [isDelta] at hit
    | delta c =>
      cases c with
      | none =>
        simp only [List.cons_append]
        simp [generate_streaming_response, deliveredOf, ih h2]
      | some s =>
        by_cases hs : s = ""
        · subst hs
          simp only [List.cons_append]
          simp [generate_streaming_response, deliveredOf, ih h2]
        · simp only [List.cons_append]
          simp [generate_streaming_response, deliveredOf, hs, ih h2]

/-! ### Claim theorems -/

/-- C1: for a chat request without selected text, an empty search result
yields `out_of_scope = true`, an empty `sources` list and a non-empty
`suggested_chapters` list, while a non-empty search result yields
`out_of_scope = false` and a `sources` list that is exactly the retrieved
chunks mapped to citations in retrieval order (hence of equal length). -/
theorem retrieval_policy_out_of_scope_and_sources
    (E : Type) (embed_query : String → E) (search : E → String → List Chunk)
    (generate_response : String → List Chunk → String → String)
    (req : ChatRequest) (hsel : req.selected_text = none) :
    (search (embed_query req.question) req.language = [] →
      (ask_question embed_query search generate_response req).out_of_scope
          = true ∧
      (ask_question embed_query search generate_response req).sources = [] ∧
      ∃ cs, (ask_question embed_query search generate_response
          req).suggested_chapters = some cs ∧ cs ≠ []) ∧
    (∀ c ck, search (embed_query req.question) req.language = c :: ck →
      (ask_question embed_query search generate_response req).out_of_scope
          = false ∧
      (ask_question embed_query search generate_response req).sources
          = (c :: ck).map (mkSource req.language) ∧
      (ask_question embed_query search generate_response req).sources.length
          = (c :: ck).length) := by
  have hctx : ask_question_context embed_query search req
      = search (embed_query req.question) req.language := by
    unfold ask_question_context
    rw [hsel]
  constructor
  · intro hempty
    simp only [ask_question, hctx, hempty]
    refine ⟨rfl, rfl, ["chapter-01-foundations"], rfl, by simp⟩
  · intro c ck hcons
    simp only [ask_question, hctx, hcons]
    rw [if_neg (by simp : ¬ (c :: ck) = [])]
    exact ⟨rfl, rfl, by simp⟩

/-- Witness for C1: both scenario branches instantiated with concrete
search functions returning zero and one chunk respectively. -/
theorem retrieval_policy_out_of_scope_and_sources_witness :
    (ask_question (fun _ : String => ()) (fun _ _ => ([] : List Chunk))
        (fun _ _ _ => "ans") ⟨"What is ROS 2?", none, "en"⟩).out_of_scope
        = true ∧
    (ask_question (fun _ : String => ())
        (fun _ _ => [Chunk.mk "c" "t" "ch" "s"])
        (fun _ _ _ => "ans") ⟨"What is ROS 2?", none, "en"⟩).sources.length
        = 1 := by
  constructor
  · exact ((retrieval_policy_out_of_scope_and_sources Unit (fun _ => ())
      (fun _ _ => []) (fun _ _ _ => "ans")
      ⟨"What is ROS 2?", none, "en"⟩ rfl).1 rfl).1
  · exact ((retrieval_policy_out_of_scope_and_sources Unit (fun _ => ())
      (fun _ _ => [Chunk.mk "c" "t" "ch" "s"]) (fun _ _ _ => "ans")
      ⟨"What is ROS 2?", none, "en"⟩ rfl).2 (Chunk.mk "c" "t" "ch" "s")
      [] rfl).2.2

/-- C2: the indexer stores `chapter_id = stem.replace('chapter-', '')`, so
for the file `chapter-02-ros2.md` the stored chapter id is `02-ros2`, not
the filename stem, and the citation URL built by the service from such a
chunk is `/en/docs/02-ros2#...`, not `/en/docs/chapter-02-ros2#...` as the
specification's scenario requires. -/
theorem chapter_id_drops_chapter_prefix :
    chapterIdOfStem "chapter-02-ros2".data = "02-ros2".data ∧
    chapterIdOfStem "chapter-02-ros2".data ≠ "chapter-02-ros2".data ∧
    (mkSource "en" ⟨"body", "What is ROS 2?",
        String.mk (chapterIdOfStem "chapter-02-ros2".data),
        "what-is-ros-2"⟩).url = "/en/docs/02-ros2#what-is-ros-2" ∧
    (mkSource "en" ⟨"body", "What is ROS 2?",
        String.mk (chapterIdOfStem "chapter-02-ros2".data),
        "what-is-ros-2"⟩).url ≠ "/en/docs/chapter-02-ros2#what-is-ros-2" := by
  refine ⟨by decide, by decide, ?_, ?_⟩
  · decide
  · decide

/-- C3 counterexample: on empty input `extract_sections` emits one section
(an empty-bodied "Introduction"), not zero sections as claimed. -/
theorem extract_sections_empty_counterexample :
    extract_sections [] = [⟨"Introduction".data, [], 0, "intro".data⟩] ∧
    (extract_sections []).length ≠ 0 := by
  decide

/-- C3 (amended): on any input without heading lines — the empty input
included — the Segmenter yields exactly one section titled "Introduction"
whose body is the whole input; being a total function it never fails. -/
theorem extract_sections_no_headings (t : List Char)
    (h : ∀ l ∈ splitNl t, headerMatch l = none) :
    extract_sections t = [⟨"Introduction".data, t, 0, "intro".data⟩] := by
  simp only [extract_sections]
  rw [foldl_processLine_nonheader (splitNl t) h [] initialCur]
  simp only [initialCur, List.nil_append]
  rw [if_pos (splitNl_ne_nil t)]
  simp [emitSec, joinSep_splitNl]

/-- Witness for C3 (amended) on a concrete two-line heading-free input. -/
theorem extract_sections_no_headings_witness :
    extract_sections "hello\nworld".data
      = [⟨"Introduction".data, "hello\nworld".data, 0, "intro".data⟩] :=
  extract_sections_no_headings "hello\nworld".data (by decide)

/-- C4: the chunks of `chunk_text` are exactly the whitespace-stripped
blank-line joins of a sequence of nonempty contiguous runs of the
section's paragraphs (every chunk boundary falls on a paragraph boundary);
any chunk assembled from two or more paragraphs has length at most `L`;
and each single paragraph longer than `L` forms its own run, appearing
(whitespace-trimmed, never truncated or dropped) as its own oversized
chunk. -/
theorem chunk_text_paragraph_boundaries (t : List Char) (L : Nat) :
    ∃ runs : List (List (List Char)),
      chunk_text t L = runs.map (fun r => pyStrip (joinSep sep2 r)) ∧
      (∀ r ∈ runs, r ≠ [] ∧ SubSeg r (splitPara2 t) ∧
        (2 ≤ r.length → (pyStrip (joinSep sep2 r)).length ≤ L)) ∧
      (∀ p ∈ splitPara2 t, L < p.length →
        [p] ∈ runs ∧ pyStrip p ∈ chunk_text t L) := by
  refine ⟨chunkRuns t L, chunk_text_eq_runs t L, ?_, ?_⟩
  · intro r hr
    obtain ⟨h1, h2, h3⟩ := chunkRuns_inv t L r hr
    exact ⟨h1, h2, fun hlen => le_trans (pyStrip_length_le _) (h3 hlen)⟩
  · intro p hp hL
    have hmem := chunkRuns_oversize t L p hp hL
    refine ⟨hmem, ?_⟩
    rw [chunk_text_eq_runs t L]
    have hjp : pyStrip (joinSep sep2 [p]) = pyStrip p := rfl
    exact hjp ▸ List.mem_map_of_mem _ hmem

/-- Witness for C4 at a concrete section text with an oversized
paragraph. -/
theorem chunk_text_paragraph_boundaries_witness :
    ∃ runs : List (List (List Char)),
      chunk_text "aaaa\n\nbb".data 3
          = runs.map (fun r => pyStrip (joinSep sep2 r)) ∧
      (∀ r ∈ runs, r ≠ [] ∧ SubSeg r (splitPara2 "aaaa\n\nbb".data) ∧
        (2 ≤ r.length → (pyStrip (joinSep sep2 r)).length ≤ 3)) ∧
      (∀ p ∈ splitPara2 "aaaa\n\nbb".data, 3 < p.length →
        [p] ∈ runs ∧ pyStrip p ∈ chunk_text "aaaa\n\nbb".data 3) :=
  chunk_text_paragraph_boundaries "aaaa\n\nbb".data 3

/-- C5 counterexample: for the section text `"a \n\nbb"` with maximum
length 3 the flush strips the trailing space of the first chunk, so the
blank-line rejoin of the chunks differs from the whitespace-trimmed
original text. -/
theorem chunk_text_rejoin_counterexample :
    joinSep sep2 (chunk_text "a \n\nbb".data 3)
      ≠ pyStrip "a \n\nbb".data := by
  decide

/-- C5 (amended): whenever every blank-line-delimited paragraph of the
section text is nonempty and carries no leading or trailing whitespace,
rejoining the chunks with the blank-line separator reproduces the
whitespace-trimmed (hence unchanged) original text, for every maximum
length `L`. -/
theorem chunk_text_rejoin (t : List Char) (L : Nat)
    (h : ∀ p ∈ splitPara2 t, TrimmedNE p) :
    joinSep sep2 (chunk_text t L) = pyStrip t := by
  cases hsp : splitPara2 t with
  | nil => exact absurd hsp (splitPara2_ne_nil t)
  | cons p0 ps =>
    rw [hsp] at h
    have hp0 : TrimmedNE p0 := h p0 (List.mem_cons_self p0 ps)
    have hps : ∀ q ∈ ps, TrimmedNE q :=
      fun q hq => h q (List.mem_cons_of_mem _ hq)
    have ht : TrimmedNE t := by
      have h2 := @trimmedNE_joinSep (p0 :: ps) (by simp) h
      rwa [← hsp, joinSep_splitPara2] at h2
    simp only [chunk_text, hsp]
    rw [List.foldl_cons, chunkStep_initial]
    rw [chunkFold_reassemble L ps hps [] p0 hp0]
    rw [show (([] : List (List Char)) ++ [p0]) ++ ps = p0 :: ps from by simp]
    rw [← hsp, joinSep_splitPara2, pyStrip_eq_self ht]

/-- Witness for C5 (amended) on a concrete trimmed two-paragraph text. -/
theorem chunk_text_rejoin_witness :
    joinSep sep2 (chunk_text "ab\n\ncd".data 3) = pyStrip "ab\n\ncd".data :=
  chunk_text_rejoin "ab\n\ncd".data 3 (by decide)

/-- C6: with 45 surviving chunks the embedding loop issues exactly the
trace call(20), sleep, call(20), sleep, call(5); in general it issues
`ceil(n/20)` embedding calls and the trace is the calls interspersed with
single sleeps, i.e. a delay after every call except the final one. -/
theorem embed_batch_schedule (α : Type) (l : List α) :
    (l.length = 45 → embedTrace l = [BatchEv.embed 20, BatchEv.sleep,
      BatchEv.embed 20, BatchEv.sleep, BatchEv.embed 5]) ∧
    (embedTrace l).countP isEmbedEv = (l.length + 19) / 20 ∧
    embedTrace l = List.intersperse BatchEv.sleep
      ((embedTrace l).filter isEmbedEv) :=
  ⟨fun h => embedTrace_45 l h, embedTrace_countP l, embedTrace_intersperse l⟩

/-- Witness for C6 on a concrete 45-element chunk list. -/
theorem embed_batch_schedule_witness :
    embedTrace (List.replicate 45 0) = [BatchEv.embed 20, BatchEv.sleep,
      BatchEv.embed 20, BatchEv.sleep, BatchEv.embed 5] :=
  (embed_batch_schedule Nat (List.replicate 45 0)).1 (by simp)

/-- C7: an Urdu request without selected text whose search step yields no
qualifying chunks receives the fixed Urdu fallback answer, the
out-of-scope flag, and the non-empty suggested-chapter list. -/
theorem urdu_out_of_scope_fallback (E : Type) (embed_query : String → E)
    (search : E → String → List Chunk)
    (generate_response : String → List Chunk → String → String)
    (req : ChatRequest) (hsel : req.selected_text = none)
    (hlang : req.language = "ur")
    (hsearch : search (embed_query req.question) req.language = []) :
    (ask_question embed_query search generate_response req).answer
        = fallback_answer_ur ∧
    (ask_question embed_query search generate_response req).out_of_scope
        = true ∧
    ∃ cs, (ask_question embed_query search generate_response
        req).suggested_chapters = some cs ∧ cs ≠ [] := by
  have hctx : ask_question_context embed_query search req = [] := by
    unfold ask_question_context
    rw [hsel]
    exact hsearch
  simp only [ask_question, hctx, hlang]
  refine ⟨by simp, by simp, ["chapter-01-foundations"], by simp, by simp⟩

/-- Witness for C7 at a concrete Urdu request and empty search. -/
theorem urdu_out_of_scope_fallback_witness :
    (ask_question (fun _ : String => ()) (fun _ _ => ([] : List Chunk))
        (fun _ _ _ => "ans") ⟨"ROS 2 kya hai?", none, "ur"⟩).answer
        = fallback_answer_ur ∧
    (ask_question (fun _ : String => ()) (fun _ _ => ([] : List Chunk))
        (fun _ _ _ => "ans") ⟨"ROS 2 kya hai?", none, "ur"⟩).out_of_scope
        = true ∧
    ∃ cs, (ask_question (fun _ : String => ()) (fun _ _ => ([] : List Chunk))
        (fun _ _ _ => "ans")
        ⟨"ROS 2 kya hai?", none, "ur"⟩).suggested_chapters
        = some cs ∧ cs ≠ [] :=
  urdu_out_of_scope_fallback Unit (fun _ => ()) (fun _ _ => [])
    (fun _ _ _ => "ans") ⟨"ROS 2 kya hai?", none, "ur"⟩ rfl rfl rfl

/-- C8 counterexample: with `selected_text` supplied as the empty string
(Python falsy) the handler falls through to embedding and search, so two
different index states produce different responses. -/
theorem selected_text_empty_counterexample :
    ask_question (fun _ : String => ()) (fun _ _ => ([] : List Chunk))
        (fun _ _ _ => "ans") ⟨"What is ROS 2?", some "", "en"⟩
      ≠ ask_question (fun _ : String => ())
        (fun _ _ => [Chunk.mk "c" "t" "ch" "s"])
        (fun _ _ _ => "ans") ⟨"What is ROS 2?", some "", "en"⟩ := by
  decide

/-- C8 (amended): when the supplied `selected_text` is non-empty, the
response is identical across any two embedding functions and any two
search functions — no embedding or search call can influence it — and the
grounding context is exactly the single synthetic chunk titled
"Selected Text". -/
theorem selected_text_bypass (E1 E2 : Type) (e1 : String → E1)
    (e2 : String → E2) (s1 : E1 → String → List Chunk)
    (s2 : E2 → String → List Chunk)
    (generate_response : String → List Chunk → String → String)
    (req : ChatRequest) (s : String) (hsel : req.selected_text = some s)
    (hne : s ≠ "") :
    ask_question e1 s1 generate_response req
        = ask_question e2 s2 generate_response req ∧
    ask_question_context e1 s1 req
        = [⟨s, "Selected Text", "unknown", "selected"⟩] := by
  have hctx1 : ask_question_context e1 s1 req
      = [⟨s, "Selected Text", "unknown", "selected"⟩] := by
    unfold ask_question_context
    rw [hsel]
    simp [hne]
  have hctx2 : ask_question_context e2 s2 req
      = [⟨s, "Selected Text", "unknown", "selected"⟩] := by
    unfold ask_question_context
    rw [hsel]
    simp [hne]
  refine ⟨?_, hctx1⟩
  simp only [ask_question, hctx1, hctx2]

/-- Witness for C8 (amended) with two unrelated embedding types and two
different index states. -/
theorem selected_text_bypass_witness :
    ask_question (fun _ : String => ()) (fun _ _ => ([] : List Chunk))
        (fun _ _ _ => "ans") ⟨"What is ROS 2?", some "some text", "en"⟩
      = ask_question (fun _ : String => true)
        (fun _ _ => [Chunk.mk "c" "t" "ch" "s"])
        (fun _ _ _ => "ans") ⟨"What is ROS 2?", some "some text", "en"⟩ ∧
    ask_question_context (fun _ : String => ())
        (fun _ _ => ([] : List Chunk))
        ⟨"What is ROS 2?", some "some text", "en"⟩
      = [⟨"some text", "Selected Text", "unknown", "selected"⟩] :=
  selected_text_bypass Unit Bool (fun _ => ()) (fun _ => true)
    (fun _ _ => []) (fun _ _ => [Chunk.mk "c" "t" "ch" "s"])
    (fun _ _ _ => "ans") ⟨"What is ROS 2?", some "some text", "en"⟩
    "some text" rfl (by decide)

/-- C9: when the provider stream delivers some deltas and then raises, the
generator yields exactly the truthy increments already delivered followed
by one terminal `"Error: ..."` fragment and terminates; the generator is a
total function of the stream, so no exception crosses to its consumer. -/
theorem streaming_failure_terminal (pre : List StreamItem) (m : String)
    (post : List StreamItem) (h : ∀ it ∈ pre, isDelta it = true) :
    generate_streaming_response (pre ++ StreamItem.failure m :: post)
      = deliveredOf pre ++ ["Error: " ++ m] :=
  streaming_deliver pre m post h

/-- Witness for C9 on a concrete stream that fails after three deltas. -/
theorem streaming_failure_terminal_witness :
    generate_streaming_response
        ([StreamItem.delta (some "Hello"), StreamItem.delta none,
          StreamItem.delta (some "")] ++ StreamItem.failure "boom"
          :: [StreamItem.delta (some "after")])
      = deliveredOf [StreamItem.delta (some "Hello"), StreamItem.delta none,
          StreamItem.delta (some "")] ++ ["Error: " ++ "boom"] ∧
    deliveredOf [StreamItem.delta (some "Hello"), StreamItem.delta none,
          StreamItem.delta (some "")] ++ ["Error: " ++ "boom"]
      = ["Hello", "Error: boom"] :=
  ⟨streaming_failure_terminal _ "boom" _ (by decide), by decide⟩

/-- C10: a line whose leading hash marks are not followed by a whitespace
character, or that starts with seven or more hash marks, is no heading:
the Segmenter leaves the section list unchanged and appends the line
verbatim to the current section's body. -/
theorem hash_line_without_space_is_body (l : List Char)
    (h : 7 ≤ (l.takeWhile (fun c => c = '#')).length ∨
      (1 ≤ (l.takeWhile (fun c => c = '#')).length ∧
        isPySpace ((l.dropWhile (fun c => c = '#')).headD 'x') = false)) :
    ∀ st : List MSection × CurSec,
      processLine st l =
        (st.1, ⟨st.2.title, st.2.content ++ [l], st.2.level,
          st.2.header_id⟩) := by
  intro st
  apply processLine_nonheader
  simp only [headerMatch]
  rcases h with h7 | ⟨h1, hns⟩
  · rw [if_neg (by omega)]
  · by_cases h6 : (l.takeWhile (fun c => c = '#')).length ≤ 6
    · rw [if_pos ⟨h1, h6⟩]
      cases htl : l.dropWhile (fun c => c = '#') with
      | nil => rfl
      | cons c rest =>
        rw [htl] at hns
        simp only [List.headD_cons] at hns
        simp [hns]
    · rw [if_neg (by omega)]

/-- Witness for C10 on the line `"#Title"` in the initial state. -/
theorem hash_line_without_space_is_body_witness :
    processLine ([], initialCur) "#Title".data
      = ([], ⟨initialCur.title, initialCur.content ++ ["#Title".data],
          initialCur.level, initialCur.header_id⟩) :=
  hash_line_without_space_is_body "#Title".data (by decide) ([], initialCur)
